import Mathlib

/-!
Verification of the file-based service-discovery engine
(`discovery/file/file.go` of bourbonkk/Clymene).

The Go code is shallowly embedded: Go maps become association lists
(`mapGet` / `mapInsert` / `mapDelete`), channel sends become lists of
emitted batches, the opaque JSON/YAML decoders become an
already-decoded field of a file model, and machine behaviour that the
claims depend on (the `patFileSDName` regex, `filepath.Match` glob
semantics, `filepath.Ext`, the fsnotify bitmask test) is translated
function by function from the corresponding source.
-/

set_option maxRecDepth 4000

/-! ### Association-list model of Go maps

Go `map[string]V` is modelled as `List (String × V)`.  `mapInsert`
updates in place or appends, `mapDelete` removes the key, `mapGet`
returns the first binding.  Go maps never hold duplicate keys; where a
theorem needs that fact it carries a `Nodup` hypothesis on the key list.
-/

def mapGet {α : Type} : List (String × α) → String → Option α
  | [], _ => none
  | e :: rest, k => if e.1 = k then some e.2 else mapGet rest k

def mapInsert {α : Type} : List (String × α) → String → α → List (String × α)
  | [], k, v => [(k, v)]
  | e :: rest, k, v => if e.1 = k then (k, v) :: rest else e :: mapInsert rest k v

def mapDelete {α : Type} (m : List (String × α)) (k : String) : List (String × α) :=
  m.filter (fun e => !(decide (e.1 = k)))

@[simp] theorem mapGet_nil {α : Type} (k : String) :
    mapGet ([] : List (String × α)) k = none := rfl

theorem mapGet_cons_eq {α : Type} {e : String × α} {rest : List (String × α)} {k : String}
    (h : e.1 = k) : mapGet (e :: rest) k = some e.2 := by
  simp [mapGet, h]

theorem mapGet_cons_ne {α : Type} {e : String × α} {rest : List (String × α)} {k : String}
    (h : ¬ e.1 = k) : mapGet (e :: rest) k = mapGet rest k := by
  simp [mapGet, h]

theorem mapInsert_cons_eq {α : Type} {e : String × α} {rest : List (String × α)}
    {k : String} {v : α} (h : e.1 = k) : mapInsert (e :: rest) k v = (k, v) :: rest := by
  simp [mapInsert, h]

theorem mapInsert_cons_ne {α : Type} {e : String × α} {rest : List (String × α)}
    {k : String} {v : α} (h : ¬ e.1 = k) :
    mapInsert (e :: rest) k v = e :: mapInsert rest k v := by
  simp [mapInsert, h]

theorem mapGet_insert_self {α : Type} (m : List (String × α)) (k : String) (v : α) :
    mapGet (mapInsert m k v) k = some v := by
  induction m with
  | nil => simp [mapInsert, mapGet]
  | cons e rest ih =>
    by_cases h : e.1 = k
    · rw [mapInsert_cons_eq h, mapGet_cons_eq rfl]
    · rw [mapInsert_cons_ne h, mapGet_cons_ne h, ih]

theorem mapGet_insert_ne {α : Type} (m : List (String × α)) (k k' : String) (v : α)
    (h : k' ≠ k) : mapGet (mapInsert m k v) k' = mapGet m k' := by
  induction m with
  | nil =>
    simp only [mapInsert]
    rw [mapGet_cons_ne (fun hh => h hh.symm)]
  | cons e rest ih =>
    by_cases he : e.1 = k
    · rw [mapInsert_cons_eq he, mapGet_cons_ne (fun hh => h hh.symm),
        mapGet_cons_ne (fun hh => h (he ▸ hh).symm)]
    · by_cases he' : e.1 = k'
      · rw [mapInsert_cons_ne he, mapGet_cons_eq he', mapGet_cons_eq he']
      · rw [mapInsert_cons_ne he, mapGet_cons_ne he', mapGet_cons_ne he', ih]

theorem mapGet_delete_self {α : Type} (m : List (String × α)) (k : String) :
    mapGet (mapDelete m k) k = none := by
  induction m with
  | nil => rfl
  | cons e rest ih =>
    by_cases h : e.1 = k
    · simpa [mapDelete, List.filter_cons, h] using ih
    · simp only [mapDelete, List.filter_cons, h] at ih ⊢
      simpa [mapGet_cons_ne h] using ih

theorem mapGet_delete_ne {α : Type} (m : List (String × α)) (k k' : String) (h : k' ≠ k) :
    mapGet (mapDelete m k) k' = mapGet m k' := by
  induction m with
  | nil => rfl
  | cons e rest ih =>
    by_cases he : e.1 = k
    · have hne : ¬ e.1 = k' := fun hh => h (by rw [← hh, he])
      simp only [mapDelete, List.filter_cons, he] at ih ⊢
      simpa [mapGet_cons_ne hne] using ih
    · by_cases he' : e.1 = k'
      · simp only [mapDelete, List.filter_cons, he] at ih ⊢
        simp [mapGet_cons_eq he', he]
      · simp only [mapDelete, List.filter_cons, he] at ih ⊢
        simpa [mapGet_cons_ne he', he] using ih

theorem keys_mapInsert_subset {α : Type} (m : List (String × α)) (k a : String) (v : α)
    (hmem : a ∈ (mapInsert m k v).map Prod.fst) : a = k ∨ a ∈ m.map Prod.fst := by
  induction m with
  | nil =>
    simp [mapInsert] at hmem
    exact Or.inl hmem
  | cons e rest ih =>
    by_cases he : e.1 = k
    · rw [mapInsert_cons_eq he] at hmem
      simp only [List.map_cons, List.mem_cons] at hmem
      rcases hmem with hm | hm
      · exact Or.inl hm
      · exact Or.inr (by simp only [List.map_cons, List.mem_cons]; exact Or.inr hm)
    · rw [mapInsert_cons_ne he] at hmem
      simp only [List.map_cons, List.mem_cons] at hmem ⊢
      rcases hmem with hm | hm
      · exact Or.inr (Or.inl hm)
      · rcases ih hm with hm' | hm'
        · exact Or.inl hm'
        · exact Or.inr (Or.inr hm')

theorem keys_insert_nodup {α : Type} (m : List (String × α)) (k : String) (v : α)
    (h : (m.map Prod.fst).Nodup) : ((mapInsert m k v).map Prod.fst).Nodup := by
  induction m with
  | nil => simp [mapInsert]
  | cons e rest ih =>
    by_cases he : e.1 = k
    · rw [mapInsert_cons_eq he]
      simp only [List.map_cons, List.nodup_cons] at h ⊢
      exact ⟨he ▸ h.1, h.2⟩
    · rw [mapInsert_cons_ne he]
      simp only [List.map_cons, List.nodup_cons] at h ⊢
      refine ⟨?_, ih h.2⟩
      intro hmem
      rcases keys_mapInsert_subset rest k e.1 v hmem with hk | hold
      · exact he hk
      · exact h.1 hold

theorem mapGet_of_mem_nodup {α : Type} (m : List (String × α)) (k : String) (v : α)
    (hmem : (k, v) ∈ m) (hnd : (m.map Prod.fst).Nodup) : mapGet m k = some v := by
  induction m with
  | nil => simp at hmem
  | cons e rest ih =>
    simp only [List.map_cons, List.nodup_cons] at hnd
    rcases List.mem_cons.mp hmem with he | he
    · subst he
      exact mapGet_cons_eq rfl
    · have hk : ¬ e.1 = k := by
        intro hh
        exact hnd.1 (hh ▸ (List.mem_map.mpr ⟨(k, v), he, rfl⟩))
      rw [mapGet_cons_ne hk]
      exact ih he hnd.2

theorem mapGet_isSome_iff {α : Type} (m : List (String × α)) (k : String) :
    (mapGet m k).isSome = true ↔ ∃ e ∈ m, e.1 = k := by
  induction m with
  | nil => simp [mapGet]
  | cons e rest ih =>
    by_cases h : e.1 = k
    · rw [mapGet_cons_eq h]
      simp only [Option.isSome_some, true_iff]
      exact ⟨e, List.mem_cons_self e rest, h⟩
    · rw [mapGet_cons_ne h, ih]
      constructor
      · rintro ⟨f, hf, hk⟩
        exact ⟨f, List.mem_cons_of_mem e hf, hk⟩
      · rintro ⟨f, hf, hk⟩
        rcases List.mem_cons.mp hf with hf' | hf'
        · exact absurd (hf' ▸ hk) h
        · exact ⟨f, hf', hk⟩

/-! ### Target groups (`targetgroup.TargetGroup`)

A Go `targetgroup.TargetGroup` has `Targets []model.LabelSet`,
`Labels model.LabelSet` (a nil-able map) and `Source string`.
A decoded file yields `[]*targetgroup.TargetGroup`, whose elements may be
nil pointers: `List (Option TargetGroup)`.
-/

structure TargetGroup where
  Targets : List (List (String × String))
  Labels : Option (List (String × String))
  Source : String
deriving DecidableEq, Repr

/-- `fileSource` returns a source ID for the i-th target group in the file
(`fmt.Sprintf("%s:%d", filename, i)`). -/
def fileSource (filename : String) (i : Nat) : String :=
  filename ++ ":" ++ toString i

/-- `fileSDFilepathLabel = model.MetaLabelPrefix + "filepath"`. -/
def fileSDFilepathLabel : String := "__meta_filepath"

/-- The per-group mutation done by `readFile`'s loop body on a non-nil
group: set the source, create the label set if nil, inject the
provenance label. -/
def stampGroup (filename : String) (i : Nat) (g : TargetGroup) : TargetGroup :=
  { g with
    Source := fileSource filename i
    Labels := some (mapInsert (g.Labels.getD []) fileSDFilepathLabel filename) }

/-- `readFile`'s loop over the decoded groups: fails on the first nil
element, otherwise stamps every group with its index. -/
def processGroups (filename : String) : Nat → List (Option TargetGroup) → Option (List TargetGroup)
  | _, [] => some []
  | _, none :: _ => none
  | i, some g :: rest =>
    (processGroups filename (i + 1) rest).map (fun gs => stampGroup filename i g :: gs)

/-! ### `filepath.Ext` and the decode dispatch -/

/-- Backwards scan of `filepath.Ext`, on the reversed character list:
stop with `""` at a path separator, return from the last dot. -/
def extAux : List Char → List Char → List Char
  | [], _ => []
  | c :: r, acc => if c = '/' then [] else if c = '.' then '.' :: acc else extAux r (c :: acc)

/-- Go `filepath.Ext`: the suffix beginning at the final dot in the
final path element; empty if there is none. -/
def extOf (name : List Char) : List Char := extAux name.reverse []

inductive Fmt where
  | json
  | yaml
deriving DecidableEq, Repr

/-- The `switch strings.ToLower(filepath.Ext(filename))` dispatch in
`readFile`.  `none` models the `panic` on an unhandled extension. -/
def decodeDispatch (filename : List Char) : Option Fmt :=
  let le := (extOf filename).map Char.toLower
  if le = ".json".data then some Fmt.json
  else if le = ".yml".data then some Fmt.yaml
  else if le = ".yaml".data then some Fmt.yaml
  else none

/-! ### The content reader (`readFile`) -/

instance exceptDecEq {ε α : Type} [DecidableEq ε] [DecidableEq α] :
    DecidableEq (Except ε α) := fun x y =>
  match x, y with
  | Except.error a, Except.error b =>
    if h : a = b then isTrue (by rw [h])
    else isFalse (by intro hh; injection hh; contradiction)
  | Except.error _, Except.ok _ => isFalse (by intro hh; exact Except.noConfusion hh)
  | Except.ok _, Except.error _ => isFalse (by intro hh; exact Except.noConfusion hh)
  | Except.ok a, Except.ok b =>
    if h : a = b then isTrue (by rw [h])
    else isFalse (by intro hh; injection hh; contradiction)

/-- Observable behaviour of one file during one read: whether
`os.Open`, `ioutil.ReadAll` and `fd.Stat` succeed, the modification
time, and the (opaque) decoder's result on the content — either a
decode error or the decoded nil-able group list. -/
structure FileModel where
  openOk : Bool
  readOk : Bool
  statOk : Bool
  mtime : Int
  decoded : Except Unit (List (Option TargetGroup))
deriving DecidableEq

inductive RFError where
  | openErr
  | readErr
  | statErr
  | panicExt
  | decodeErr
  | nilGroup
deriving DecidableEq, Repr

/-- `Discovery.readFile`, threading the per-instance timestamp map:
open, read, stat, dispatch on the extension (`panicExt` models the
panic branch), decode, reject nil group elements, stamp the groups and
only then `writeTimestamp`. -/
def readFile (p : String) (fm : FileModel) (ts : List (String × Int)) :
    Except RFError (List TargetGroup) × List (String × Int) :=
  if fm.openOk = false then (Except.error RFError.openErr, ts)
  else if fm.readOk = false then (Except.error RFError.readErr, ts)
  else if fm.statOk = false then (Except.error RFError.statErr, ts)
  else
    match decodeDispatch p.data with
    | none => (Except.error RFError.panicExt, ts)
    | some _ =>
      match fm.decoded with
      | Except.error _ => (Except.error RFError.decodeErr, ts)
      | Except.ok raws =>
        match processGroups p 0 raws with
        | none => (Except.error RFError.nilGroup, ts)
        | some gs => (Except.ok gs, mapInsert ts p fm.mtime)

/-- The value part of `readFile`, which does not depend on the
timestamp map being threaded. -/
def readRes (p : String) (fm : FileModel) : Except RFError (List TargetGroup) :=
  (readFile p fm []).1

theorem readFile_fst (p : String) (fm : FileModel) (ts : List (String × Int)) :
    (readFile p fm ts).1 = readRes p fm := by
  rcases fm with ⟨o, r, s, mt, dec⟩
  simp only [readRes, readFile]
  by_cases ho : o = false
  · simp [ho]
  · by_cases hr : r = false
    · simp [ho, hr]
    · by_cases hs : s = false
      · simp [ho, hr, hs]
      · rw [if_neg ho, if_neg ho, if_neg hr, if_neg hr, if_neg hs, if_neg hs]
        cases hd : decodeDispatch p.data
        · simp [hd]
        · cases dec with
          | error e => simp [hd]
          | ok raws =>
            cases hp : processGroups p 0 raws <;> simp [hd, hp]

/-! ### The reconciliation engine (`Discovery.refresh`)

`refresh` is embedded as a pure function over: the list of files the
enumerator returned (`listFiles()`), a map from path to that file's
observable read behaviour, and the discovery state
(`d.timestamps`, `d.lastRefresh`).  Channel sends become the two
batch lists; Go emits all per-file batches first, then the deletion
loop's tombstone batches, in that order.  The cancellation-free
(completed) execution is modelled.
-/

structure ScanAcc where
  ts : List (String × Int)
  ref : List (String × Nat)
  batches : List (List TargetGroup)
  errs : Nat
deriving DecidableEq

/-- One iteration of `refresh`'s first loop (`for _, p := range d.listFiles()`):
read the file; on error bump the counter and carry the previous count
forward (`ref[p] = d.lastRefresh[p]`, zero if absent); on success send
the batch and record the new count. -/
def refreshStep (fs : String → FileModel) (last : List (String × Nat))
    (acc : ScanAcc) (p : String) : ScanAcc :=
  match (readFile p (fs p) acc.ts).1 with
  | Except.error _ =>
    { acc with
      errs := acc.errs + 1
      ref := mapInsert acc.ref p ((mapGet last p).getD 0)
      ts := (readFile p (fs p) acc.ts).2 }
  | Except.ok tgs =>
    { acc with
      batches := acc.batches ++ [tgs]
      ref := mapInsert acc.ref p tgs.length
      ts := (readFile p (fs p) acc.ts).2 }

def scanFiles (files : List String) (fs : String → FileModel)
    (ts0 : List (String × Int)) (last : List (String × Nat)) : ScanAcc :=
  files.foldl (refreshStep fs last) ⟨ts0, [], [], 0⟩

/-- The tombstone group `&targetgroup.Group{Source: fileSource(f, i)}`:
zero-valued labels and targets. -/
def tombGroup (f : String) (i : Nat) : TargetGroup :=
  { Targets := [], Labels := none, Source := fileSource f i }

/-- One iteration of the deletion loop over `d.lastRefresh`:
`m, ok := ref[f]; if !ok || n > m` then delete the timestamp entry and
send one single-group tombstone batch for every index `m ≤ i < n`. -/
def delStep (ref : List (String × Nat))
    (acc : List (String × Int) × List (List TargetGroup)) (e : String × Nat) :
    List (String × Int) × List (List TargetGroup) :=
  let m := (mapGet ref e.1).getD 0
  if (mapGet ref e.1).isNone || decide (e.2 > m) then
    (mapDelete acc.1 e.1, acc.2 ++ (List.range' m (e.2 - m)).map (fun i => [tombGroup e.1 i]))
  else acc

/-- The tombstone batches the deletion loop emits for one entry of the
previous baseline. -/
def tombsFor (ref : List (String × Nat)) (f : String) (n : Nat) : List (List TargetGroup) :=
  let m := (mapGet ref f).getD 0
  if (mapGet ref f).isNone || decide (n > m) then
    (List.range' m (n - m)).map (fun i => [tombGroup f i])
  else []

structure RefreshOut where
  fileBatches : List (List TargetGroup)
  tombBatches : List (List TargetGroup)
  readErrors : Nat
  timestamps : List (String × Int)
  lastRefresh : List (String × Nat)
deriving DecidableEq

/-- `Discovery.refresh`: scan every enumerated file, then run the
deletion loop over the previous baseline, then replace the baseline
with the new count map. -/
def refresh (files : List String) (fs : String → FileModel)
    (ts0 : List (String × Int)) (last : List (String × Nat)) : RefreshOut :=
  let p1 := scanFiles files fs ts0 last
  let d := last.foldl (delStep p1.ref) (p1.ts, [])
  { fileBatches := p1.batches
    tombBatches := d.2
    readErrors := p1.errs
    timestamps := d.1
    lastRefresh := p1.ref }

/-! ### The timestamp registry (`TimestampCollector.Collect`)

`Collect` iterates the registry's `map[*Discovery]struct{}` — in Go's
unspecified map-iteration order — and merges every instance's
timestamp map into `uniqueFiles`, then emits one gauge sample per
entry of `uniqueFiles`.  The iteration order is the function's input:
`discs` lists the instances' timestamp maps in the order the range
loop happens to visit them. -/
def collectUnique (discs : List (List (String × Int))) : List (String × Int) :=
  discs.foldl (fun acc ts => ts.foldl (fun a e => mapInsert a e.1 e.2) acc) []

/-! ### The event loop filter (`Discovery.Run`) -/

def fsnotifyCreate : Nat := 1
def fsnotifyWrite : Nat := 2
def fsnotifyRemove : Nat := 4
def fsnotifyRename : Nat := 8
def fsnotifyChmod : Nat := 16

/-- The filter in `Run`'s event branch: skip events with an empty
name (`len(event.Name) == 0`) and pure-chmod events
(`event.Op^fsnotify.Chmod == 0`); everything else triggers `refresh`. -/
def eventTriggersRefresh (name : String) (op : Nat) : Bool :=
  !(decide (name.length = 0)) && !(decide (op ^^^ fsnotifyChmod = 0))

/-! ### The pattern validator (`patFileSDName`, `SDConfig.UnmarshalYAML`)

`patFileSDName = ^[^*]*(\*[^/]*)?\.(json|yml|yaml|JSON|YML|YAML)$`.
`patMatch` is an executable matcher for this anchored regex over the
pattern's characters, with the regex's nondeterminism resolved by
trying, at each position, to enter the optional star group or the
final `\.ext` directly.  `PatShape` is the declarative reading
(a decomposition into prefix, optional star group and extension),
proved equivalent below.
-/

def extSix : List (List Char) :=
  ["json".data, "yml".data, "yaml".data, "JSON".data, "YML".data, "YAML".data]

/-- Matches `\.(json|yml|yaml|JSON|YML|YAML)$`. -/
def dotExt (t : List Char) : Bool :=
  extSix.any (fun e => decide (t = '.' :: e))

/-- Matches `[^/]*\.(json|...)$`. -/
def starSuffix : List Char → Bool
  | [] => false
  | c :: r => dotExt (c :: r) || (decide (c ≠ '/') && starSuffix r)

/-- Matches `(\*[^/]*)?\.(json|...)$`. -/
def afterPre (t : List Char) : Bool :=
  dotExt t ||
    (match t with
     | c :: r => decide (c = '*') && starSuffix r
     | [] => false)

/-- Matches the whole anchored regex `^[^*]*(\*[^/]*)?\.(json|...)$`. -/
def patMatch : List Char → Bool
  | [] => afterPre []
  | c :: r => afterPre (c :: r) || (decide (c ≠ '*') && patMatch r)

/-- Declarative form of the regex: a star-free literal prefix, an
optional `*`-group whose suffix has no path separator, a dot, and one
of the six extension spellings. -/
def PatShape (s : List Char) : Prop :=
  ∃ pre opt ext, s = pre ++ (opt ++ ('.' :: ext)) ∧ '*' ∉ pre ∧
    (opt = [] ∨ ∃ rest, opt = '*' :: rest ∧ '/' ∉ rest) ∧ ext ∈ extSix

/-- Modelled from the spec: the claimed shape
`<literal-prefix>(*<literal-suffix>)?.<ext>` with the extension
matched case-insensitively against json/yml/yaml. -/
def SpecShapeCI (s : List Char) : Prop :=
  ∃ pre opt ext, s = pre ++ (opt ++ ('.' :: ext)) ∧ '*' ∉ pre ∧
    (opt = [] ∨ ∃ rest, opt = '*' :: rest ∧ '/' ∉ rest) ∧
    ext ≠ [] ∧ ext.map Char.toLower ∈ ["json".data, "yml".data, "yaml".data]

/-- The validation performed by `SDConfig.UnmarshalYAML` after the
(opaque) YAML unmarshalling succeeded: at least one path, and every
path matches `patFileSDName`. -/
def validateSDConfig (files : List String) : Bool :=
  !(decide (files.length = 0)) && files.all (fun name => patMatch name.data)

theorem dotExt_iff (t : List Char) : dotExt t = true ↔ ∃ e ∈ extSix, t = '.' :: e := by
  simp [dotExt, List.any_eq_true]

theorem starSuffix_iff (t : List Char) :
    starSuffix t = true ↔ ∃ u v, t = u ++ v ∧ '/' ∉ u ∧ dotExt v = true := by
  induction t with
  | nil =>
    constructor
    · intro h
      simp [starSuffix] at h
    · rintro ⟨u, v, huv, -, hv⟩
      rcases List.append_eq_nil.mp huv.symm with ⟨rfl, rfl⟩
      simp [dotExt, extSix] at hv
  | cons c r ih =>
    simp only [starSuffix, Bool.or_eq_true, Bool.and_eq_true, decide_eq_true_eq]
    constructor
    · rintro (h | ⟨hc, hr⟩)
      · exact ⟨[], c :: r, rfl, by simp, h⟩
      · rcases ih.mp hr with ⟨u, v, rfl, hu, hv⟩
        refine ⟨c :: u, v, rfl, ?_, hv⟩
        simp only [List.mem_cons, not_or]
        exact ⟨fun hh => hc hh.symm, hu⟩
    · rintro ⟨u, v, huv, hu, hv⟩
      cases u with
      | nil =>
        simp only [List.nil_append] at huv
        exact Or.inl (huv ▸ hv)
      | cons a u' =>
        simp only [List.cons_append, List.cons.injEq] at huv
        rcases huv with ⟨rfl, rfl⟩
        simp only [List.mem_cons, not_or] at hu
        exact Or.inr ⟨fun hh => hu.1 hh.symm, ih.mpr ⟨u', v, rfl, hu.2, hv⟩⟩

theorem afterPre_iff (t : List Char) :
    afterPre t = true ↔
      dotExt t = true ∨ ∃ r, t = '*' :: r ∧ starSuffix r = true := by
  cases t with
  | nil =>
    simp [afterPre]
  | cons c r =>
    simp only [afterPre, Bool.or_eq_true, Bool.and_eq_true, decide_eq_true_eq]
    constructor
    · rintro (h | ⟨rfl, hr⟩)
      · exact Or.inl h
      · exact Or.inr ⟨r, rfl, hr⟩
    · rintro (h | ⟨r', hr', hs⟩)
      · exact Or.inl h
      · simp only [List.cons.injEq] at hr'
        rcases hr' with ⟨rfl, rfl⟩
        exact Or.inr ⟨rfl, hs⟩

theorem patMatch_iff_split (s : List Char) :
    patMatch s = true ↔ ∃ a b, s = a ++ b ∧ '*' ∉ a ∧ afterPre b = true := by
  induction s with
  | nil =>
    simp only [patMatch]
    constructor
    · intro h
      exact ⟨[], [], rfl, by simp, h⟩
    · rintro ⟨a, b, hab, -, hb⟩
      rcases List.append_eq_nil.mp hab.symm with ⟨rfl, rfl⟩
      exact hb
  | cons c r ih =>
    simp only [patMatch, Bool.or_eq_true, Bool.and_eq_true, decide_eq_true_eq]
    constructor
    · rintro (h | ⟨hc, hr⟩)
      · exact ⟨[], c :: r, rfl, by simp, h⟩
      · rcases ih.mp hr with ⟨a, b, rfl, ha, hb⟩
        refine ⟨c :: a, b, rfl, ?_, hb⟩
        simp only [List.mem_cons, not_or]
        exact ⟨fun hh => hc hh.symm, ha⟩
    · rintro ⟨a, b, hab, ha, hb⟩
      cases a with
      | nil =>
        simp only [List.nil_append] at hab
        exact Or.inl (hab ▸ hb)
      | cons x a' =>
        simp only [List.cons_append, List.cons.injEq] at hab
        rcases hab with ⟨rfl, rfl⟩
        simp only [List.mem_cons, not_or] at ha
        exact Or.inr ⟨fun hh => ha.1 hh.symm, ih.mpr ⟨a', b, rfl, ha.2, hb⟩⟩

theorem patMatch_iff_shape (s : List Char) : patMatch s = true ↔ PatShape s := by
  rw [patMatch_iff_split]
  constructor
  · rintro ⟨a, b, rfl, ha, hb⟩
    rcases (afterPre_iff b).mp hb with hd | ⟨r, rfl, hs⟩
    · rcases (dotExt_iff b).mp hd with ⟨e, he, rfl⟩
      exact ⟨a, [], e, by simp, ha, Or.inl rfl, he⟩
    · rcases (starSuffix_iff r).mp hs with ⟨u, v, rfl, hu, hv⟩
      rcases (dotExt_iff v).mp hv with ⟨e, he, rfl⟩
      refine ⟨a, '*' :: u, e, by simp, ha, Or.inr ⟨u, rfl, hu⟩, he⟩
  · rintro ⟨pre, opt, ext, rfl, hpre, hopt, hext⟩
    refine ⟨pre, opt ++ ('.' :: ext), rfl, hpre, ?_⟩
    rcases hopt with rfl | ⟨rest, rfl, hrest⟩
    · simp only [List.nil_append]
      exact (afterPre_iff _).mpr (Or.inl ((dotExt_iff _).mpr ⟨ext, hext, rfl⟩))
    · refine (afterPre_iff _).mpr (Or.inr ⟨rest ++ ('.' :: ext), by simp, ?_⟩)
      exact (starSuffix_iff _).mpr
        ⟨rest, '.' :: ext, rfl, hrest, (dotExt_iff _).mpr ⟨ext, hext, rfl⟩⟩

/-! ### Glob matching (`path/filepath.Match` semantics)

`listFiles` expands each configured pattern with `filepath.Glob`; the
names Glob produces are exactly the existing paths for which
`filepath.Match(pattern, name)` succeeds.  `globMatchF` translates
Match's semantics on Unix: `*` matches any run of non-separator
characters, `?` one non-separator character, `[...]`/`[^...]` a
character class (parsed exactly as Go's `getEsc` loop, including its
malformed-pattern errors), `\x` escapes `x`, and everything else is
literal.  A malformed pattern yields `ErrBadPattern` in Go, so Glob
produces no names for it; here it simply never matches.  The fuel
argument only drives structural recursion; every recursive call
shrinks `pattern.length + name.length`, and the wrapper supplies more
than that. -/

/-- Go's `getEsc`: one class element, possibly backslash-escaped;
fails on an empty, `-`- or `]`-leading chunk and when the class would
end right after the element (no room for `]`). -/
def getEsc : List Char → Option (Char × List Char)
  | [] => none
  | [_] => none
  | c :: c2 :: r2 =>
    if c = '-' then none
    else if c = ']' then none
    else if c = '\\' then (if r2 = [] then none else some (c2, r2))
    else some (c, c2 :: r2)

/-- Go's class-scanning loop: gather `lo-hi` ranges until a `]` closes
a non-empty class; return the ranges and the rest of the pattern. -/
def parseRangesF : Nat → List Char → List (Char × Char) →
    Option (List (Char × Char) × List Char)
  | 0, _, _ => none
  | fuel + 1, chunk, acc =>
    if chunk.head? = some ']' ∧ acc ≠ [] then some (acc, chunk.tail)
    else
      match getEsc chunk with
      | none => none
      | some (lo, r1) =>
        if r1.head? = some '-' then
          match getEsc r1.tail with
          | none => none
          | some (hi, r3) => parseRangesF fuel r3 ((lo, hi) :: acc)
        else parseRangesF fuel r1 ((lo, lo) :: acc)

def parseRanges (chunk : List Char) : Option (List (Char × Char) × List Char) :=
  parseRangesF (chunk.length + 1) chunk []

/-- One step of Match: `g` is the matcher with one unit less fuel. -/
def globStep (g : List Char → List Char → Bool) (p n : List Char) : Bool :=
  match p with
  | [] => decide (n = [])
  | c :: p' =>
    if c = '*' then
      match n with
      | [] => g p' []
      | d :: n' => g p' (d :: n') || (decide (d ≠ '/') && g ('*' :: p') n')
    else if c = '?' then
      match n with
      | [] => false
      | d :: n' => decide (d ≠ '/') && g p' n'
    else if c = '[' then
      match n with
      | [] => false
      | d :: n' =>
        match parseRanges (if p'.head? = some '^' then p'.tail else p') with
        | none => false
        | some (rs, rest) =>
          ((rs.any (fun lh => decide (lh.1 ≤ d ∧ d ≤ lh.2))) !=
            decide (p'.head? = some '^')) && g rest n'
    else if c = '\\' then
      match p' with
      | [] => false
      | e :: p'' =>
        match n with
        | [] => false
        | d :: n' => decide (e = d) && g p'' n'
    else
      match n with
      | [] => false
      | d :: n' => decide (c = d) && g p' n'

def globMatchF : Nat → List Char → List Char → Bool
  | 0, _, _ => false
  | fuel + 1, p, n => globStep (globMatchF fuel) p n

/-- `filepath.Match pattern name` on Unix. -/
def globMatch (p n : List Char) : Bool :=
  globMatchF (p.length + n.length + 1) p n

/-! ### Branch equations and structural lemmas for the glob matcher -/

theorem globMatchF_zero (p n : List Char) : globMatchF 0 p n = false := rfl

theorem globMatchF_succ (fuel : Nat) (p n : List Char) :
    globMatchF (fuel + 1) p n = globStep (globMatchF fuel) p n := rfl

theorem globStep_nil (g : List Char → List Char → Bool) (n : List Char) :
    globStep g [] n = decide (n = []) := rfl

theorem globStep_star (g : List Char → List Char → Bool) (p' n : List Char) :
    globStep g ('*' :: p') n =
      (match n with
       | [] => g p' []
       | d :: n' => g p' (d :: n') || (decide (d ≠ '/') && g ('*' :: p') n')) := rfl

theorem globStep_quest (g : List Char → List Char → Bool) (p' n : List Char) :
    globStep g ('?' :: p') n =
      (match n with
       | [] => false
       | d :: n' => decide (d ≠ '/') && g p' n') := rfl

theorem globStep_class (g : List Char → List Char → Bool) (p' n : List Char) :
    globStep g ('[' :: p') n =
      (match n with
       | [] => false
       | d :: n' =>
         match parseRanges (if p'.head? = some '^' then p'.tail else p') with
         | none => false
         | some (rs, rest) =>
           ((rs.any (fun lh => decide (lh.1 ≤ d ∧ d ≤ lh.2))) !=
             decide (p'.head? = some '^')) && g rest n') := rfl

theorem globStep_esc (g : List Char → List Char → Bool) (p' n : List Char) :
    globStep g ('\\' :: p') n =
      (match p' with
       | [] => false
       | e :: p'' =>
         match n with
         | [] => false
         | d :: n' => decide (e = d) && g p'' n') := rfl

theorem globStep_lit (g : List Char → List Char → Bool) (c : Char) (p' n : List Char)
    (h1 : ¬ c = '*') (h2 : ¬ c = '?') (h3 : ¬ c = '[') (h4 : ¬ c = '\\') :
    globStep g (c :: p') n =
      (match n with
       | [] => false
       | d :: n' => decide (c = d) && g p' n') := by
  simp only [globStep, if_neg h1, if_neg h2, if_neg h3, if_neg h4]

theorem suffix_eq_drop {α : Type} {l L : List α} (h : l <:+ L) :
    l = L.drop (L.length - l.length) := by
  rcases h with ⟨s, rfl⟩
  rw [List.length_append, Nat.add_sub_cancel, List.drop_left]

theorem suffix_of_suffix_le {α : Type} {l1 l2 L : List α}
    (h1 : l1 <:+ L) (h2 : l2 <:+ L) (hl : l1.length ≤ l2.length) : l1 <:+ l2 := by
  have e1 := suffix_eq_drop h1
  have e2 := suffix_eq_drop h2
  have hl1 : l1.length ≤ L.length := h1.length_le
  have hl2 : l2.length ≤ L.length := h2.length_le
  rw [e1, e2]
  rw [show L.length - l1.length =
    (L.length - l2.length) + (L.length - l1.length - (L.length - l2.length)) by omega]
  rw [← List.drop_drop]
  exact List.drop_suffix _ _

theorem getEsc_append (l : List Char) (c : Char) (r : List Char)
    (h : getEsc l = some (c, r)) : ∃ pre, l = pre ++ r := by
  match l with
  | [] => simp [getEsc] at h
  | [a] => simp [getEsc] at h
  | a :: b :: l2 =>
    by_cases h1 : a = '-'
    · simp [getEsc, h1] at h
    · by_cases h2 : a = ']'
      · simp [getEsc, h1, h2] at h
      · by_cases h3 : a = '\\'
        · by_cases h4 : l2 = []
          · simp [getEsc, h1, h2, h3, h4] at h
          · simp only [getEsc, if_neg h1, if_neg h2, if_pos h3, if_neg h4,
              Option.some.injEq, Prod.mk.injEq] at h
            obtain ⟨rfl, rfl⟩ := h
            exact ⟨[a, b], rfl⟩
        · simp only [getEsc, if_neg h1, if_neg h2, if_neg h3,
            Option.some.injEq, Prod.mk.injEq] at h
          obtain ⟨rfl, rfl⟩ := h
          exact ⟨[a], rfl⟩

theorem parseRangesF_split : ∀ fuel chunk acc rs rest,
    parseRangesF fuel chunk acc = some (rs, rest) → ∃ pre, chunk = pre ++ ']' :: rest := by
  intro fuel
  induction fuel with
  | zero =>
    intro chunk acc rs rest h
    simp [parseRangesF] at h
  | succ fuel ih =>
    intro chunk acc rs rest h
    rw [parseRangesF] at h
    by_cases hc : chunk.head? = some ']' ∧ acc ≠ []
    · rw [if_pos hc] at h
      obtain ⟨h5, -⟩ := hc
      cases chunk with
      | nil => simp at h5
      | cons x xs =>
        simp only [List.head?_cons, Option.some.injEq] at h5
        subst h5
        simp only [List.tail_cons, Option.some.injEq, Prod.mk.injEq] at h
        obtain ⟨-, rfl⟩ := h
        exact ⟨[], rfl⟩
    · rw [if_neg hc] at h
      cases hg : getEsc chunk with
      | none => rw [hg] at h; simp at h
      | some pr =>
        obtain ⟨lo, r1⟩ := pr
        simp only [hg] at h
        obtain ⟨preA, hpreA⟩ := getEsc_append _ _ _ hg
        by_cases hdash : r1.head? = some '-'
        · rw [if_pos hdash] at h
          cases r1 with
          | nil => simp at hdash
          | cons rc r2 =>
            simp only [List.head?_cons, Option.some.injEq] at hdash
            subst hdash
            simp only [List.tail_cons] at h
            cases hg2 : getEsc r2 with
            | none => rw [hg2] at h; simp at h
            | some pr2 =>
              obtain ⟨hi, r3⟩ := pr2
              simp only [hg2] at h
              obtain ⟨pre3, hpre3⟩ := ih _ _ _ _ h
              obtain ⟨preB, hpreB⟩ := getEsc_append _ _ _ hg2
              refine ⟨preA ++ '-' :: (preB ++ pre3), ?_⟩
              rw [hpreA, hpreB, hpre3]
              simp [List.append_assoc]
        · rw [if_neg hdash] at h
          obtain ⟨pre1, hpre1⟩ := ih _ _ _ _ h
          refine ⟨preA ++ pre1, ?_⟩
          rw [hpreA, hpre1]
          simp [List.append_assoc]

theorem parseRanges_split (body : List Char) (rs : List (Char × Char)) (rest : List Char)
    (h : parseRanges body = some (rs, rest)) : ∃ pre, body = pre ++ ']' :: rest :=
  parseRangesF_split _ _ _ _ _ h

theorem globMatchF_all_lit : ∀ fuel p n,
    (∀ c ∈ p, ¬ c = '*' ∧ ¬ c = '?' ∧ ¬ c = '[' ∧ ¬ c = '\\') →
    globMatchF fuel p n = true → n = p := by
  intro fuel
  induction fuel with
  | zero =>
    intro p n _ h
    rw [globMatchF_zero] at h
    simp at h
  | succ fuel ih =>
    intro p n hlit h
    rw [globMatchF_succ] at h
    cases p with
    | nil =>
      rw [globStep_nil] at h
      simpa using h
    | cons c p' =>
      obtain ⟨h1, h2, h3, h4⟩ := hlit c (List.mem_cons_self ..)
      rw [globStep_lit _ c p' n h1 h2 h3 h4] at h
      cases n with
      | nil => simp at h
      | cons d n' =>
        simp only [Bool.and_eq_true, decide_eq_true_eq] at h
        obtain ⟨rfl, hrec⟩ := h
        rw [ih p' n' (fun x hx => hlit x (List.mem_cons_of_mem _ hx)) hrec]

/-- The crux of the panic-unreachability claim: a literal tail of the
pattern (no glob metacharacters, no `]`) survives into every name the
pattern matches. -/
theorem globMatchF_lit_tail : ∀ fuel p n t,
    globMatchF fuel p n = true → t <:+ p →
    (∀ c ∈ t, ¬ c = '*' ∧ ¬ c = '?' ∧ ¬ c = '[' ∧ ¬ c = ']' ∧ ¬ c = '\\') →
    t <:+ n := by
  intro fuel
  induction fuel with
  | zero =>
    intro p n t h _ _
    rw [globMatchF_zero] at h
    simp at h
  | succ fuel ih =>
    intro p n t h hsuf hlit
    rw [globMatchF_succ] at h
    cases p with
    | nil =>
      have ht : t = [] := List.suffix_nil.mp hsuf
      subst ht
      exact List.nil_suffix
    | cons c p' =>
      rcases List.suffix_cons_iff.mp hsuf with hw | hsuf'
      · subst hw
        have hall : ∀ x ∈ c :: p', ¬x = '*' ∧ ¬x = '?' ∧ ¬x = '[' ∧ ¬x = '\\' :=
          fun x hx =>
            ⟨(hlit x hx).1, (hlit x hx).2.1, (hlit x hx).2.2.1, (hlit x hx).2.2.2.2⟩
        have hn := globMatchF_all_lit (fuel + 1) (c :: p') n hall
          (by rw [globMatchF_succ]; exact h)
        rw [hn]
      · by_cases hc1 : c = '*'
        · subst hc1
          rw [globStep_star] at h
          cases n with
          | nil => exact ih p' [] t h hsuf' hlit
          | cons d n' =>
            simp only [Bool.or_eq_true, Bool.and_eq_true, decide_eq_true_eq] at h
            rcases h with h | ⟨-, h⟩
            · exact ih p' (d :: n') t h hsuf' hlit
            · have hs : t <:+ ('*' :: p') := List.suffix_cons_iff.mpr (Or.inr hsuf')
              exact List.suffix_cons_iff.mpr (Or.inr (ih ('*' :: p') n' t h hs hlit))
        · by_cases hc2 : c = '?'
          · subst hc2
            rw [globStep_quest] at h
            cases n with
            | nil => simp at h
            | cons d n' =>
              simp only [Bool.and_eq_true, decide_eq_true_eq] at h
              exact List.suffix_cons_iff.mpr (Or.inr (ih p' n' t h.2 hsuf' hlit))
          · by_cases hc3 : c = '['
            · subst hc3
              rw [globStep_class] at h
              cases n with
              | nil => simp at h
              | cons d n' =>
                cases hpr : parseRanges (if p'.head? = some '^' then p'.tail else p') with
                | none => rw [hpr] at h; simp at h
                | some pr =>
                  obtain ⟨rs, rest⟩ := pr
                  simp only [hpr, Bool.and_eq_true] at h
                  obtain ⟨-, hrec⟩ := h
                  obtain ⟨pre, hpre⟩ := parseRanges_split _ _ _ hpr
                  have hbody : t <:+ (if p'.head? = some '^' then p'.tail else p') := by
                    by_cases hneg : p'.head? = some '^'
                    · cases p' with
                      | nil => simp at hneg
                      | cons x xs =>
                        simp only [List.head?_cons, Option.some.injEq] at hneg
                        subst hneg
                        rcases List.suffix_cons_iff.mp hsuf' with hw2 | hsuf2
                        · exfalso
                          simp only [List.head?_cons, List.tail_cons, if_pos] at hpre
                          have hmem : (']' : Char) ∈ t := by
                            rw [hw2, hpre]
                            exact List.mem_cons_of_mem _
                              (List.mem_append_right _ (List.mem_cons_self ..))
                          exact ((hlit ']' hmem).2.2.2.1) rfl
                        · simpa [List.tail_cons] using hsuf2
                    · rw [if_neg hneg]
                      exact hsuf'
                  rw [hpre] at hbody
                  by_cases hl : t.length ≤ rest.length
                  · have hrs : rest <:+ pre ++ ']' :: rest :=
                      ⟨pre ++ [']'], by simp⟩
                    have htr : t <:+ rest := suffix_of_suffix_le hbody hrs hl
                    exact List.suffix_cons_iff.mpr
                      (Or.inr (ih rest n' t hrec htr hlit))
                  · exfalso
                    have hbr : (']' :: rest) <:+ pre ++ ']' :: rest := ⟨pre, rfl⟩
                    have hin : (']' :: rest) <:+ t := by
                      refine suffix_of_suffix_le hbr hbody ?_
                      simp only [List.length_cons]
                      omega
                    exact ((hlit ']' (hin.subset (List.mem_cons_self ..))).2.2.2.1) rfl
            · by_cases hc4 : c = '\\'
              · subst hc4
                rw [globStep_esc] at h
                cases p' with
                | nil => simp at h
                | cons e p'' =>
                  cases n with
                  | nil => simp at h
                  | cons d n' =>
                    simp only [Bool.and_eq_true, decide_eq_true_eq] at h
                    obtain ⟨rfl, hrec⟩ := h
                    rcases List.suffix_cons_iff.mp hsuf' with hw2 | hsuf2
                    · subst hw2
                      have hall : ∀ x ∈ p'', ¬x = '*' ∧ ¬x = '?' ∧ ¬x = '[' ∧ ¬x = '\\' :=
                        fun x hx =>
                          ⟨(hlit x (List.mem_cons_of_mem _ hx)).1,
                           (hlit x (List.mem_cons_of_mem _ hx)).2.1,
                           (hlit x (List.mem_cons_of_mem _ hx)).2.2.1,
                           (hlit x (List.mem_cons_of_mem _ hx)).2.2.2.2⟩
                      rw [globMatchF_all_lit fuel p'' n' hall hrec]
                    · exact List.suffix_cons_iff.mpr
                        (Or.inr (ih p'' n' t hrec hsuf2 hlit))
              · rw [globStep_lit _ c p' n hc1 hc2 hc3 hc4] at h
                cases n with
                | nil => simp at h
                | cons d n' =>
                  simp only [Bool.and_eq_true, decide_eq_true_eq] at h
                  exact List.suffix_cons_iff.mpr (Or.inr (ih p' n' t h.2 hsuf' hlit))

theorem extAux_append (w : List Char) (rest acc : List Char)
    (hw : ∀ c ∈ w, ¬ c = '.' ∧ ¬ c = '/') :
    extAux (w ++ '.' :: rest) acc = '.' :: (w.reverse ++ acc) := by
  induction w generalizing acc with
  | nil => simp [extAux]
  | cons c w' ihw =>
    obtain ⟨hc1, hc2⟩ := hw c (List.mem_cons_self ..)
    simp only [List.cons_append, extAux, if_neg hc2, if_neg hc1, List.append_eq]
    rw [ihw (c :: acc) (fun x hx => hw x (List.mem_cons_of_mem _ hx))]
    simp

theorem extOf_of_tail (name : List Char) (e : List Char)
    (h : ('.' :: e) <:+ name) (he : ∀ c ∈ e, ¬ c = '.' ∧ ¬ c = '/') :
    extOf name = '.' :: e := by
  obtain ⟨front, rfl⟩ := h
  unfold extOf
  rw [List.reverse_append, show ('.' :: e).reverse = e.reverse ++ ['.'] by simp,
    List.append_assoc, List.singleton_append]
  rw [extAux_append e.reverse front.reverse []
    (fun c hc => he c (by simpa using hc))]
  simp

theorem patMatch_ext_tail (s : List Char) (h : patMatch s = true) :
    ∃ e ∈ extSix, ('.' :: e) <:+ s := by
  rw [patMatch_iff_shape] at h
  obtain ⟨pre, opt, ext, rfl, -, -, hext⟩ := h
  exact ⟨ext, hext, ⟨pre ++ opt, List.append_assoc pre opt ('.' :: ext)⟩⟩

theorem extSix_lit : ∀ e ∈ extSix, ∀ c ∈ ('.' :: e),
    ¬ c = '*' ∧ ¬ c = '?' ∧ ¬ c = '[' ∧ ¬ c = ']' ∧ ¬ c = '\\' := by decide

theorem extSix_chars : ∀ e ∈ extSix, ∀ c ∈ e, ¬ c = '.' ∧ ¬ c = '/' := by decide

theorem extSix_lower : ∀ e ∈ extSix,
    ('.' :: e).map Char.toLower ∈ [".json".data, ".yml".data, ".yaml".data] := by decide

/-! ### Support lemmas about `refresh` -/

theorem readFile_snd (p : String) (fm : FileModel) (ts : List (String × Int)) :
    (readFile p fm ts).2 =
      if (readFile p fm ts).1.isOk then mapInsert ts p fm.mtime else ts := by
  rcases fm with ⟨o, r, s, mt, dec⟩
  by_cases ho : o = false
  · simp [readFile, ho, Except.isOk, Except.toBool, Except.toBool]
  · by_cases hr : r = false
    · simp [readFile, ho, hr, Except.isOk, Except.toBool, Except.toBool]
    · by_cases hs : s = false
      · simp [readFile, ho, hr, hs, Except.isOk, Except.toBool, Except.toBool]
      · simp only [readFile, if_neg ho, if_neg hr, if_neg hs]
        cases hd : decodeDispatch p.data
        · simp [Except.isOk, Except.toBool, Except.toBool]
        · cases dec with
          | error e => simp [Except.isOk, Except.toBool, Except.toBool]
          | ok raws =>
            cases hp : processGroups p 0 raws <;> simp [Except.isOk, Except.toBool, hp]

/-- The value stored into the new count map for one path: the group
count on success, the carried-forward previous count on failure. -/
def refVal (fs : String → FileModel) (last : List (String × Nat)) (q : String) : Nat :=
  match readRes q (fs q) with
  | Except.ok tgs => tgs.length
  | Except.error _ => (mapGet last q).getD 0

theorem refreshStep_ref (fs : String → FileModel) (last : List (String × Nat))
    (acc : ScanAcc) (p : String) :
    (refreshStep fs last acc p).ref = mapInsert acc.ref p (refVal fs last p) := by
  unfold refreshStep refVal
  rw [readFile_fst]
  cases readRes p (fs p) <;> rfl

theorem refreshStep_batches (fs : String → FileModel) (last : List (String × Nat))
    (acc : ScanAcc) (p : String) :
    (refreshStep fs last acc p).batches =
      acc.batches ++ ((readRes p (fs p)).toOption.map (fun tgs => [tgs])).getD [] := by
  unfold refreshStep
  rw [readFile_fst]
  cases readRes p (fs p) with
  | error e => simp [Except.toOption]
  | ok tgs => simp [Except.toOption]

theorem refreshStep_errs (fs : String → FileModel) (last : List (String × Nat))
    (acc : ScanAcc) (p : String) :
    (refreshStep fs last acc p).errs =
      acc.errs + (if (readRes p (fs p)).isOk then 0 else 1) := by
  unfold refreshStep
  rw [readFile_fst]
  cases readRes p (fs p) <;> simp [Except.isOk, Except.toBool, Except.toBool]

theorem foldl_refreshStep_batches (fs : String → FileModel) (last : List (String × Nat)) :
    ∀ (files : List String) (acc : ScanAcc),
      (files.foldl (refreshStep fs last) acc).batches =
        acc.batches ++ files.filterMap (fun p => (readRes p (fs p)).toOption) := by
  intro files
  induction files with
  | nil => simp
  | cons p rest ih =>
    intro acc
    rw [List.foldl_cons, ih, refreshStep_batches]
    cases hp : readRes p (fs p) with
    | error e => simp [Except.toOption, hp]
    | ok tgs => simp [Except.toOption, hp]

theorem foldl_refreshStep_errs (fs : String → FileModel) (last : List (String × Nat)) :
    ∀ (files : List String) (acc : ScanAcc),
      (files.foldl (refreshStep fs last) acc).errs =
        acc.errs + (files.filter (fun p => !(readRes p (fs p)).isOk)).length := by
  intro files
  induction files with
  | nil => simp
  | cons p rest ih =>
    intro acc
    rw [List.foldl_cons, ih, refreshStep_errs]
    cases hp : readRes p (fs p) with
    | error e =>
      simp [List.filter_cons, Except.isOk, Except.toBool, hp, Nat.add_comm, Nat.add_assoc]
    | ok tgs =>
      simp [List.filter_cons, Except.isOk, Except.toBool, hp]

theorem foldl_refreshStep_ref_not_mem (fs : String → FileModel) (last : List (String × Nat)) :
    ∀ (files : List String) (acc : ScanAcc) (q : String), q ∉ files →
      mapGet ((files.foldl (refreshStep fs last) acc).ref) q = mapGet acc.ref q := by
  intro files
  induction files with
  | nil => intro acc q _; rfl
  | cons p rest ih =>
    intro acc q hq
    simp only [List.mem_cons, not_or] at hq
    rw [List.foldl_cons, ih _ q hq.2, refreshStep_ref]
    exact mapGet_insert_ne _ _ _ _ hq.1

theorem foldl_refreshStep_ref_mem (fs : String → FileModel) (last : List (String × Nat)) :
    ∀ (files : List String) (acc : ScanAcc) (q : String), q ∈ files → files.Nodup →
      mapGet ((files.foldl (refreshStep fs last) acc).ref) q = some (refVal fs last q) := by
  intro files
  induction files with
  | nil => intro acc q hq; simp at hq
  | cons p rest ih =>
    intro acc q hq hnd
    simp only [List.nodup_cons] at hnd
    rcases List.mem_cons.mp hq with rfl | hq'
    · rw [List.foldl_cons, foldl_refreshStep_ref_not_mem fs last rest _ q hnd.1,
        refreshStep_ref]
      exact mapGet_insert_self _ _ _
    · rw [List.foldl_cons, ih _ q hq' hnd.2]

theorem foldl_refreshStep_ref_nodup (fs : String → FileModel) (last : List (String × Nat)) :
    ∀ (files : List String) (acc : ScanAcc), (acc.ref.map Prod.fst).Nodup →
      (((files.foldl (refreshStep fs last) acc).ref).map Prod.fst).Nodup := by
  intro files
  induction files with
  | nil => intro acc h; exact h
  | cons p rest ih =>
    intro acc h
    rw [List.foldl_cons]
    exact ih _ (by rw [refreshStep_ref]; exact keys_insert_nodup _ _ _ h)

theorem foldl_refreshStep_ref_of_ok (fs : String → FileModel) (last : List (String × Nat)) :
    ∀ (files : List String) (acc : ScanAcc),
      (∀ p ∈ files, (readRes p (fs p)).isOk = true) →
      (files.foldl (refreshStep fs last) acc).ref =
        files.foldl
          (fun r p => mapInsert r p ((readRes p (fs p)).toOption.getD []).length)
          acc.ref := by
  intro files
  induction files with
  | nil => intro acc _; rfl
  | cons p rest ih =>
    intro acc hok
    rw [List.foldl_cons, List.foldl_cons,
      ih _ (fun q hq => hok q (List.mem_cons_of_mem _ hq)), refreshStep_ref]
    have hp := hok p (List.mem_cons_self ..)
    unfold refVal
    cases hres : readRes p (fs p) with
    | error e => rw [hres] at hp; simp [Except.isOk, Except.toBool, Except.toBool] at hp
    | ok tgs => simp [Except.toOption]

theorem delStep_snd (ref : List (String × Nat))
    (acc : List (String × Int) × List (List TargetGroup)) (e : String × Nat) :
    (delStep ref acc e).2 = acc.2 ++ tombsFor ref e.1 e.2 := by
  unfold delStep tombsFor
  by_cases hc : ((mapGet ref e.1).isNone || decide (e.2 > (mapGet ref e.1).getD 0)) = true
  · rw [if_pos hc, if_pos hc]
  · rw [if_neg hc, if_neg hc, List.append_nil]

theorem foldl_delStep_snd (ref : List (String × Nat)) :
    ∀ (l : List (String × Nat)) (acc : List (String × Int) × List (List TargetGroup)),
      ((l.foldl (delStep ref) acc).2) =
        acc.2 ++ l.flatMap (fun e => tombsFor ref e.1 e.2) := by
  intro l
  induction l with
  | nil => simp
  | cons e l' ih =>
    intro acc
    rw [List.foldl_cons, ih, delStep_snd]
    simp [List.append_assoc]

theorem delStep_fst_none (ref : List (String × Nat))
    (acc : List (String × Int) × List (List TargetGroup)) (e : String × Nat)
    (f : String) (h : mapGet acc.1 f = none) : mapGet (delStep ref acc e).1 f = none := by
  unfold delStep
  by_cases hc : ((mapGet ref e.1).isNone || decide (e.2 > (mapGet ref e.1).getD 0)) = true
  · rw [if_pos hc]
    by_cases he : f = e.1
    · subst he
      exact mapGet_delete_self _ _
    · rw [mapGet_delete_ne _ _ _ he]
      exact h
  · rw [if_neg hc]
    exact h

theorem foldl_delStep_fst_none (ref : List (String × Nat)) :
    ∀ (l : List (String × Nat)) (acc : List (String × Int) × List (List TargetGroup))
      (f : String), mapGet acc.1 f = none →
      mapGet ((l.foldl (delStep ref) acc).1) f = none := by
  intro l
  induction l with
  | nil => intro acc f h; exact h
  | cons e l' ih =>
    intro acc f h
    rw [List.foldl_cons]
    exact ih _ f (delStep_fst_none ref acc e f h)

theorem foldl_delStep_deletes (ref : List (String × Nat)) :
    ∀ (l : List (String × Nat)) (acc : List (String × Int) × List (List TargetGroup))
      (f : String) (n : Nat), (f, n) ∈ l →
      ((mapGet ref f).isNone || decide (n > (mapGet ref f).getD 0)) = true →
      mapGet ((l.foldl (delStep ref) acc).1) f = none := by
  intro l
  induction l with
  | nil => intro acc f n h; simp at h
  | cons e l' ih =>
    intro acc f n hmem hcond
    rcases List.mem_cons.mp hmem with rfl | hmem'
    · rw [List.foldl_cons]
      refine foldl_delStep_fst_none ref l' _ f ?_
      unfold delStep
      rw [if_pos hcond]
      exact mapGet_delete_self _ _
    · rw [List.foldl_cons]
      exact ih _ f n hmem' hcond

theorem tombsFor_of_lt (ref : List (String × Nat)) (f : String) (n : Nat)
    (h : (mapGet ref f).getD 0 < n) :
    tombsFor ref f n =
      (List.range' ((mapGet ref f).getD 0) (n - (mapGet ref f).getD 0)).map
        (fun i => [tombGroup f i]) := by
  unfold tombsFor
  rw [if_pos]
  cases hm : mapGet ref f with
  | none => simp
  | some m =>
    rw [hm] at h
    simp only [Option.getD_some] at h
    simp [h]

theorem tombsFor_of_ge (ref : List (String × Nat)) (f : String) (n : Nat)
    (h : n ≤ (mapGet ref f).getD 0) : tombsFor ref f n = [] := by
  unfold tombsFor
  cases hm : mapGet ref f with
  | none =>
    rw [hm] at h
    simp only [Option.getD_none, Nat.le_zero] at h
    subst h
    simp
  | some m =>
    rw [hm] at h
    simp only [Option.getD_some] at h
    simp [Nat.not_lt.mpr h]

theorem mapGet_mem {α : Type} (m : List (String × α)) (k : String) (v : α)
    (h : mapGet m k = some v) : (k, v) ∈ m := by
  induction m with
  | nil => simp at h
  | cons e rest ih =>
    by_cases he : e.1 = k
    · rw [mapGet_cons_eq he] at h
      obtain rfl := Option.some.inj h
      have : (k, e.2) = e := by
        obtain ⟨e1, e2⟩ := e
        simp only at he
        rw [he]
      rw [this]
      exact List.mem_cons_self ..
    · rw [mapGet_cons_ne he] at h
      exact List.mem_cons_of_mem _ (ih h)

/-! ### Support lemmas about `readFile`'s group loop -/

theorem processGroups_none (p : String) :
    ∀ (raws : List (Option TargetGroup)) (i : Nat), none ∈ raws →
      processGroups p i raws = none := by
  intro raws
  induction raws with
  | nil => intro i h; simp at h
  | cons r rest ih =>
    intro i hmem
    cases r with
    | none => rfl
    | some g =>
      rcases List.mem_cons.mp hmem with h | h
      · simp at h
      · simp only [processGroups, ih (i + 1) h, Option.map_none']

theorem processGroups_some (p : String) :
    ∀ (raws : List (Option TargetGroup)) (i : Nat), (∀ r ∈ raws, r ≠ none) →
      ∃ gs, processGroups p i raws = some gs ∧ gs.length = raws.length ∧
        ∀ j (hj : j < gs.length),
          (gs.get ⟨j, hj⟩).Source = fileSource p (i + j) ∧
          ∃ ls, (gs.get ⟨j, hj⟩).Labels = some ls ∧
            mapGet ls fileSDFilepathLabel = some p := by
  intro raws
  induction raws with
  | nil =>
    intro i _
    refine ⟨[], rfl, rfl, ?_⟩
    intro j hj
    simp at hj
  | cons r rest ih =>
    intro i hnz
    cases r with
    | none => exact absurd rfl (hnz none (List.mem_cons_self ..))
    | some g =>
      obtain ⟨gs', h1, h2, h3⟩ := ih (i + 1) (fun x hx => hnz x (List.mem_cons_of_mem _ hx))
      refine ⟨stampGroup p i g :: gs', ?_, ?_, ?_⟩
      · simp only [processGroups, h1, Option.map_some']
      · simp [h2]
      · intro j hj
        cases j with
        | zero =>
          refine ⟨by simp [stampGroup, Nat.add_zero], ?_⟩
          refine ⟨mapInsert (g.Labels.getD []) fileSDFilepathLabel p, ?_, ?_⟩
          · simp [stampGroup]
          · exact mapGet_insert_self _ _ _
        | succ j' =>
          have hj' : j' < gs'.length := by
            simp only [List.length_cons] at hj
            omega
          obtain ⟨hsrc, hlab⟩ := h3 j' hj'
          constructor
          · simpa [show i + (j' + 1) = (i + 1) + j' by omega] using hsrc
          · simpa using hlab

/-! ### Support lemmas about `TimestampCollector.Collect` -/

theorem mapGet_insertList {α : Type} :
    ∀ (l acc : List (String × α)) (p : String),
      mapGet (l.foldl (fun a e => mapInsert a e.1 e.2) acc) p =
        (match l.reverse.find? (fun e => decide (e.1 = p)) with
         | some e => some e.2
         | none => mapGet acc p) := by
  intro l
  induction l with
  | nil => intro acc p; simp
  | cons e l' ih =>
    intro acc p
    rw [List.foldl_cons, ih, List.reverse_cons, List.find?_append]
    cases hf : l'.reverse.find? (fun x => decide (x.1 = p)) with
    | some x => simp [Option.orElse]
    | none =>
      by_cases he : e.1 = p
      · subst he
        simp [Option.orElse, List.find?, mapGet_insert_self]
      · simp only [Option.orElse, List.find?]
        simp [he, mapGet_insert_ne _ _ _ _ (fun hh => he hh.symm)]

theorem collectUnique_eq_flatten (discs : List (List (String × Int))) :
    collectUnique discs =
      (discs.flatten).foldl (fun a e => mapInsert a e.1 e.2) [] := by
  suffices h : ∀ (ds : List (List (String × Int))) (acc : List (String × Int)),
      ds.foldl (fun acc ts => ts.foldl (fun a e => mapInsert a e.1 e.2) acc) acc =
        (ds.flatten).foldl (fun a e => mapInsert a e.1 e.2) acc by
    exact h discs []
  intro ds
  induction ds with
  | nil => intro acc; simp
  | cons d ds' ih =>
    intro acc
    rw [List.foldl_cons, ih, List.flatten_cons, List.foldl_append]

theorem foldl_insert_keys_nodup {α : Type} :
    ∀ (l : List (String × α)) (acc : List (String × α)),
      (acc.map Prod.fst).Nodup →
      (((l.foldl (fun a e => mapInsert a e.1 e.2) acc)).map Prod.fst).Nodup := by
  intro l
  induction l with
  | nil => intro acc h; exact h
  | cons e l' ih =>
    intro acc h
    rw [List.foldl_cons]
    exact ih _ (keys_insert_nodup _ _ _ h)

theorem refresh_fileBatches (files : List String) (fs : String → FileModel)
    (ts0 : List (String × Int)) (last : List (String × Nat)) :
    (refresh files fs ts0 last).fileBatches = (scanFiles files fs ts0 last).batches := rfl

theorem refresh_tombBatches (files : List String) (fs : String → FileModel)
    (ts0 : List (String × Int)) (last : List (String × Nat)) :
    (refresh files fs ts0 last).tombBatches =
      (last.foldl (delStep (scanFiles files fs ts0 last).ref)
        ((scanFiles files fs ts0 last).ts, [])).2 := rfl

theorem refresh_readErrors (files : List String) (fs : String → FileModel)
    (ts0 : List (String × Int)) (last : List (String × Nat)) :
    (refresh files fs ts0 last).readErrors = (scanFiles files fs ts0 last).errs := rfl

theorem refresh_timestamps (files : List String) (fs : String → FileModel)
    (ts0 : List (String × Int)) (last : List (String × Nat)) :
    (refresh files fs ts0 last).timestamps =
      (last.foldl (delStep (scanFiles files fs ts0 last).ref)
        ((scanFiles files fs ts0 last).ts, [])).1 := rfl

theorem refresh_lastRefresh (files : List String) (fs : String → FileModel)
    (ts0 : List (String × Int)) (last : List (String × Nat)) :
    (refresh files fs ts0 last).lastRefresh = (scanFiles files fs ts0 last).ref := rfl

/-! ### The claims -/

/-- **C9**: in the event loop, a filesystem-change notification triggers a
refresh if and only if its name is non-empty and its operation is not the
attribute-only (chmod) operation; empty-name or chmod-only events are
discarded. -/
theorem C9_event_filter (name : String) (op : Nat) :
    eventTriggersRefresh name op = true ↔ (name ≠ "" ∧ op ≠ fsnotifyChmod) := by
  unfold eventTriggersRefresh
  rw [Bool.and_eq_true, Bool.not_eq_true', Bool.not_eq_true',
    decide_eq_false_iff_not, decide_eq_false_iff_not]
  constructor
  · rintro ⟨h1, h2⟩
    refine ⟨fun hh => h1 (by rw [hh]; rfl), fun hh => h2 (by rw [hh]; simp)⟩
  · rintro ⟨h1, h2⟩
    refine ⟨fun hh => h1 ?_, fun hh => h2 (Nat.xor_eq_zero.mp hh)⟩
    cases name with
    | mk data =>
      have hd : data.length = 0 := hh
      rw [List.length_eq_zero] at hd
      subst hd
      rfl

/-- **C10**: on every failure path of `readFile` (open, read, stat,
decode, nil group element — and the panic branch) the timestamp map is
returned unchanged; the timestamp entry is written exactly when the whole
read succeeds. -/
theorem C10_timestamp_write (p : String) (fm : FileModel) (ts : List (String × Int)) :
    (∀ e, (readFile p fm ts).1 = Except.error e → (readFile p fm ts).2 = ts) ∧
    ((readFile p fm ts).1.isOk = true →
      (readFile p fm ts).2 = mapInsert ts p fm.mtime) := by
  constructor
  · intro e he
    rw [readFile_snd, he]
    simp [Except.isOk, Except.toBool]
  · intro hok
    rw [readFile_snd, hok]
    simp

theorem C10_witness :
    ((readFile "a.json" ⟨false, true, true, 9, Except.ok []⟩ [("b.yml", 3)]).1 =
      Except.error RFError.openErr) ∧
    (readFile "a.json" ⟨false, true, true, 9, Except.ok []⟩ [("b.yml", 3)]).2 =
      [("b.yml", 3)] :=
  ⟨by decide,
   (C10_timestamp_write "a.json" ⟨false, true, true, 9, Except.ok []⟩ [("b.yml", 3)]).1
     RFError.openErr (by decide)⟩

/-- **C5 counterexample**: the pattern `"a.Json"` has the spec's claimed
shape with a case-insensitive extension (`"Json"` lowercases to
`"json"`), and the pattern list is non-empty — so by the claim
validation should succeed — yet `SDConfig.UnmarshalYAML`'s validation
rejects it, because `patFileSDName` only accepts the all-lowercase and
all-uppercase spellings. -/
theorem C5_counterexample :
    validateSDConfig ["a.Json"] = false ∧ (["a.Json"] : List String) ≠ [] ∧
      SpecShapeCI "a.Json".data := by
  refine ⟨by decide, by decide, ?_⟩
  refine ⟨"a".data, [], "Json".data, by decide, by decide, Or.inl rfl, by decide, by decide⟩

/-- **C5 amended**: configuration validation fails iff the pattern list
is empty or some pattern does not match
`<literal-prefix>(*<literal-suffix>)?.<ext>` where `<ext>` is written
exactly as one of `json`, `yml`, `yaml`, `JSON`, `YML`, `YAML`
(all-lowercase or all-uppercase; mixed case such as `.Json` is
rejected). -/
theorem C5_amended (files : List String) :
    validateSDConfig files = true ↔ (files ≠ [] ∧ ∀ name ∈ files, PatShape name.data) := by
  unfold validateSDConfig
  rw [Bool.and_eq_true, Bool.not_eq_true', decide_eq_false_iff_not, List.all_eq_true]
  constructor
  · rintro ⟨h1, h2⟩
    exact ⟨fun hh => h1 (by rw [hh]; rfl),
      fun nm hnm => (patMatch_iff_shape nm.data).mp (h2 nm hnm)⟩
  · rintro ⟨h1, h2⟩
    refine ⟨fun hh => h1 (List.length_eq_zero.mp hh),
      fun nm hnm => (patMatch_iff_shape nm.data).mpr (h2 nm hnm)⟩

/-- **C8 counterexample**: two registered instances, `d1 = {"a" ↦ 1}`
registered before `d2 = {"a" ↦ 2}`.  The registry is a Go map, so the
`Collect` range loop may visit `d2` first and `d1` second; with that
iteration order the deduplicated value for `"a"` is `1`, taken from the
earlier-registered instance, not the later-registered one's `2`. -/
theorem C8_counterexample :
    mapGet (collectUnique [[("a", (2 : Int))], [("a", 1)]]) "a" = some 1 ∧
      (1 : Int) ≠ 2 := by
  constructor
  · decide
  · decide

/-- **C8 amended**: `Collect` emits exactly one gauge sample per
distinct file path (the deduplicated map's keys are unique), a path is
emitted iff some registered instance holds a timestamp for it, and on a
collision the emitted value is the one from the instance the (unordered)
map iteration happens to visit last — not necessarily the
later-registered instance. -/
theorem C8_amended (discs : List (List (String × Int))) (p : String) :
    ((collectUnique discs).map Prod.fst).Nodup ∧
    mapGet (collectUnique discs) p =
      ((discs.flatten).reverse.find? (fun e => decide (e.1 = p))).map Prod.snd ∧
    ((mapGet (collectUnique discs) p).isSome =
      discs.any (fun ts => (mapGet ts p).isSome)) := by
  refine ⟨?_, ?_, ?_⟩
  · rw [collectUnique_eq_flatten]
    exact foldl_insert_keys_nodup _ _ (by simp)
  · rw [collectUnique_eq_flatten, mapGet_insertList]
    cases hf : (discs.flatten).reverse.find? (fun e => decide (e.1 = p)) <;> simp
  · rw [collectUnique_eq_flatten, mapGet_insertList]
    cases hf : (discs.flatten).reverse.find? (fun e => decide (e.1 = p)) with
    | some x =>
      have hx := List.find?_some hf
      have hmem : x ∈ discs.flatten := List.mem_reverse.mp (List.mem_of_find?_eq_some hf)
      simp only [decide_eq_true_eq] at hx
      obtain ⟨ts, hts, hxts⟩ := List.mem_flatten.mp hmem
      simp only [Option.isSome_some]
      symm
      rw [List.any_eq_true]
      refine ⟨ts, hts, ?_⟩
      rw [mapGet_isSome_iff]
      exact ⟨x, hxts, hx⟩
    | none =>
      have hnone := List.find?_eq_none.mp hf
      rw [mapGet_nil]
      simp only [Option.isSome_none]
      symm
      rw [List.any_eq_false]
      intro ts hts
      simp only [Bool.not_eq_true]
      by_contra hne
      have hsome : (mapGet ts p).isSome = true := by
        cases hg : mapGet ts p with
        | none => exact absurd (by rw [hg]; rfl) hne
        | some v => rfl
      obtain ⟨e, he, hep⟩ := (mapGet_isSome_iff ts p).mp hsome
      exact absurd (decide_eq_true hep)
        (hnone e (List.mem_reverse.mpr (List.mem_flatten.mpr ⟨ts, hts, he⟩)))

/-- **C3**: when open/read/stat succeed, the extension is handled, and
the content decodes to a nil-free list of N groups, `readFile` returns
exactly N groups; the group at index `j` has source `"<path>:<j>"`, its
label set exists (created when absent) and maps the provenance label
`__meta_filepath` to the file path; an empty decoded list yields the
valid success result `[]`, distinct from a decode error. -/
theorem C3_readFile_success (p : String) (fm : FileModel)
    (raws : List (Option TargetGroup))
    (ho : fm.openOk = true) (hr : fm.readOk = true) (hs : fm.statOk = true)
    (hd : decodeDispatch p.data ≠ none) (hdec : fm.decoded = Except.ok raws)
    (hnn : ∀ r ∈ raws, r ≠ none) :
    ∃ gs, readRes p fm = Except.ok gs ∧ gs.length = raws.length ∧
      (∀ j (hj : j < gs.length),
        (gs.get ⟨j, hj⟩).Source = p ++ ":" ++ toString j ∧
        ∃ ls, (gs.get ⟨j, hj⟩).Labels = some ls ∧
          mapGet ls fileSDFilepathLabel = some p) ∧
      (raws = [] → gs = []) := by
  obtain ⟨gs, h1, h2, h3⟩ := processGroups_some p raws 0 hnn
  refine ⟨gs, ?_, h2, ?_, ?_⟩
  · unfold readRes readFile
    rw [if_neg (by rw [ho]; simp), if_neg (by rw [hr]; simp), if_neg (by rw [hs]; simp)]
    cases hdd : decodeDispatch p.data with
    | none => exact absurd hdd hd
    | some fmt => simp [hdec, h1]
  · intro j hj
    obtain ⟨hsrc, hlab⟩ := h3 j hj
    refine ⟨?_, hlab⟩
    rw [hsrc]
    simp [fileSource]
  · intro hre
    subst hre
    simpa [List.length_eq_zero] using h2

theorem C3_witness :
    ((⟨true, true, true, 5,
        Except.ok [some ⟨[[("host", "a:1")]], none, "old"⟩]⟩ : FileModel).openOk = true) ∧
    decodeDispatch "f.json".data ≠ none ∧
    (∃ gs, readRes "f.json"
        ⟨true, true, true, 5, Except.ok [some ⟨[[("host", "a:1")]], none, "old"⟩]⟩ =
          Except.ok gs ∧
      gs.length = [some (⟨[[("host", "a:1")]], none, "old"⟩ : TargetGroup)].length ∧
      (∀ j (hj : j < gs.length),
        (gs.get ⟨j, hj⟩).Source = "f.json" ++ ":" ++ toString j ∧
        ∃ ls, (gs.get ⟨j, hj⟩).Labels = some ls ∧
          mapGet ls fileSDFilepathLabel = some "f.json") ∧
      ([some (⟨[[("host", "a:1")]], none, "old"⟩ : TargetGroup)] = [] → gs = [])) :=
  ⟨by decide, by decide,
    C3_readFile_success "f.json" _ _ (by decide) (by decide) (by decide) (by decide)
      rfl (by decide)⟩

/-- **C4**: if the decoded sequence contains a null group element,
`readFile` fails for the whole file with the nil-group error and
returns no groups, instead of skipping the null element. -/
theorem C4_nil_group_fails (p : String) (fm : FileModel)
    (raws : List (Option TargetGroup))
    (ho : fm.openOk = true) (hr : fm.readOk = true) (hs : fm.statOk = true)
    (hd : decodeDispatch p.data ≠ none) (hdec : fm.decoded = Except.ok raws)
    (hnil : none ∈ raws) :
    readRes p fm = Except.error RFError.nilGroup := by
  unfold readRes readFile
  rw [if_neg (by rw [ho]; simp), if_neg (by rw [hr]; simp), if_neg (by rw [hs]; simp)]
  cases hdd : decodeDispatch p.data with
  | none => exact absurd hdd hd
  | some fmt => simp [hdec, processGroups_none p raws 0 hnil]

theorem C4_witness :
    decodeDispatch "f.json".data ≠ none ∧
    (none ∈ [some (⟨[], none, ""⟩ : TargetGroup), none]) ∧
    readRes "f.json"
        ⟨true, true, true, 5, Except.ok [some ⟨[], none, ""⟩, none]⟩ =
      Except.error RFError.nilGroup :=
  ⟨by decide, by decide,
    C4_nil_group_fails "f.json" _ _ (by decide) (by decide) (by decide) (by decide)
      rfl (by decide)⟩

/-- **C7**: if a configured pattern passes the `patFileSDName`
validator, then every name that `filepath.Match` accepts for that
pattern (hence every path `filepath.Glob` can produce from it in
`listFiles`) has an extension that lowercases to `.json`, `.yml` or
`.yaml`, so `readFile`'s decode dispatch always selects a decoder and
its panic branch for an unhandled extension is unreachable. -/
theorem C7_panic_unreachable (pat name : List Char)
    (hpat : patMatch pat = true) (hmatch : globMatch pat name = true) :
    (extOf name).map Char.toLower ∈ [".json".data, ".yml".data, ".yaml".data] ∧
    decodeDispatch name ≠ none := by
  obtain ⟨e, he, hsuf⟩ := patMatch_ext_tail pat hpat
  have htail : ('.' :: e) <:+ name :=
    globMatchF_lit_tail _ pat name ('.' :: e) hmatch hsuf (extSix_lit e he)
  have hext : extOf name = '.' :: e := extOf_of_tail name e htail (extSix_chars e he)
  have hlow := extSix_lower e he
  rw [hext]
  refine ⟨hlow, ?_⟩
  unfold decodeDispatch
  rw [hext]
  simp only [List.mem_cons, List.not_mem_nil, or_false] at hlow
  rcases hlow with h | h | h <;>
    · simp only [List.map_cons, List.cons.injEq] at h
      simp [h.2]

theorem C7_witness :
    patMatch "*.json".data = true ∧ globMatch "*.json".data "ab.json".data = true ∧
    ((extOf "ab.json".data).map Char.toLower ∈
        [".json".data, ".yml".data, ".yaml".data] ∧
      decodeDispatch "ab.json".data ≠ none) :=
  ⟨by decide, by decide,
    C7_panic_unreachable "*.json".data "ab.json".data (by decide) (by decide)⟩

/-- **C1**: for a path `f` in the previous baseline with count `n`, and
new-scan count `m` (zero when absent), if `m < n` the refresh removes
`f`'s timestamp entry; the deletion loop's output is exactly the
per-entry tombstone lists, `f`'s share being one single-group batch per
index `m ≤ i < n` whose only content is the source `"<f>:<i>"` (no
labels, no targets); entries with `m ≥ n` contribute no tombstones. -/
theorem C1_deletion_tombstones (files : List String) (fs : String → FileModel)
    (ts0 : List (String × Int)) (last : List (String × Nat)) (f : String) (n : Nat)
    (hnp : ∀ q ∈ files, decodeDispatch q.data ≠ none)
    (hn : mapGet last f = some n)
    (hm : (mapGet (refresh files fs ts0 last).lastRefresh f).getD 0 < n) :
    mapGet (refresh files fs ts0 last).timestamps f = none ∧
    (refresh files fs ts0 last).tombBatches =
      last.flatMap (fun e => tombsFor (refresh files fs ts0 last).lastRefresh e.1 e.2) ∧
    tombsFor (refresh files fs ts0 last).lastRefresh f n =
      (List.range' ((mapGet (refresh files fs ts0 last).lastRefresh f).getD 0)
          (n - (mapGet (refresh files fs ts0 last).lastRefresh f).getD 0)).map
        (fun i => [{ Targets := [], Labels := none,
                     Source := f ++ ":" ++ toString i }]) ∧
    (∀ g k, k ≤ (mapGet (refresh files fs ts0 last).lastRefresh g).getD 0 →
      tombsFor (refresh files fs ts0 last).lastRefresh g k = []) := by
  rw [refresh_lastRefresh] at hm
  rw [refresh_timestamps, refresh_tombBatches, refresh_lastRefresh]
  refine ⟨?_, ?_, ?_, ?_⟩
  · have hcond : ((mapGet (scanFiles files fs ts0 last).ref f).isNone ||
        decide (n > (mapGet (scanFiles files fs ts0 last).ref f).getD 0)) = true := by
      cases hg : mapGet (scanFiles files fs ts0 last).ref f with
      | none => simp
      | some m =>
        rw [hg] at hm
        simp only [Option.getD_some] at hm
        simp [hm]
    exact foldl_delStep_deletes _ last _ f n (mapGet_mem last f n hn) hcond
  · rw [foldl_delStep_snd]
    simp
  · rw [tombsFor_of_lt (scanFiles files fs ts0 last).ref f n hm]
    rfl
  · intro g k hk
    exact tombsFor_of_ge _ g k hk

theorem C1_witness :
    mapGet [("a.json", (2 : Nat))] "a.json" = some 2 ∧
    (mapGet (refresh [] (fun _ => ⟨true, true, true, 0, Except.ok []⟩)
        [("a.json", (7 : Int))] [("a.json", 2)]).lastRefresh "a.json").getD 0 < 2 ∧
    (mapGet (refresh [] (fun _ => ⟨true, true, true, 0, Except.ok []⟩)
        [("a.json", (7 : Int))] [("a.json", 2)]).timestamps "a.json" = none ∧
      (refresh [] (fun _ => ⟨true, true, true, 0, Except.ok []⟩)
          [("a.json", (7 : Int))] [("a.json", 2)]).tombBatches =
        [("a.json", (2 : Nat))].flatMap (fun e =>
          tombsFor (refresh [] (fun _ => ⟨true, true, true, 0, Except.ok []⟩)
              [("a.json", (7 : Int))] [("a.json", 2)]).lastRefresh e.1 e.2) ∧
      tombsFor (refresh [] (fun _ => ⟨true, true, true, 0, Except.ok []⟩)
          [("a.json", (7 : Int))] [("a.json", 2)]).lastRefresh "a.json" 2 =
        (List.range' ((mapGet (refresh [] (fun _ => ⟨true, true, true, 0, Except.ok []⟩)
              [("a.json", (7 : Int))] [("a.json", 2)]).lastRefresh "a.json").getD 0)
            (2 - (mapGet (refresh [] (fun _ => ⟨true, true, true, 0, Except.ok []⟩)
              [("a.json", (7 : Int))] [("a.json", 2)]).lastRefresh "a.json").getD 0)).map
          (fun i => [{ Targets := [], Labels := none,
                       Source := "a.json" ++ ":" ++ toString i }]) ∧
      (∀ g k, k ≤ (mapGet (refresh [] (fun _ => ⟨true, true, true, 0, Except.ok []⟩)
            [("a.json", (7 : Int))] [("a.json", 2)]).lastRefresh g).getD 0 →
        tombsFor (refresh [] (fun _ => ⟨true, true, true, 0, Except.ok []⟩)
            [("a.json", (7 : Int))] [("a.json", 2)]).lastRefresh g k = [])) :=
  ⟨by decide, by decide,
    C1_deletion_tombstones [] (fun _ => ⟨true, true, true, 0, Except.ok []⟩)
      [("a.json", (7 : Int))] [("a.json", 2)] "a.json" 2
      (by decide) (by decide) (by decide)⟩

/-- **C2**: for a file whose read/decode fails during refresh, the
read-error counter counts exactly one increment for it (the total is
the number of failing files), the new baseline receives the path's
previous count unchanged (zero when it had none), hence the deletion
step emits no tombstones for it, and the remaining files are still
processed (the per-file batches are exactly the successful reads'). -/
theorem C2_read_error_carries_forward (files : List String) (fs : String → FileModel)
    (ts0 : List (String × Int)) (last : List (String × Nat)) (p : String)
    (hnp : ∀ q ∈ files, decodeDispatch q.data ≠ none)
    (hnd : files.Nodup) (hp : p ∈ files)
    (hfail : (readRes p (fs p)).isOk = false) :
    (refresh files fs ts0 last).readErrors =
      (files.filter (fun q => !(readRes q (fs q)).isOk)).length ∧
    (files.filter (fun q => !(readRes q (fs q)).isOk)).count p = 1 ∧
    mapGet (refresh files fs ts0 last).lastRefresh p = some ((mapGet last p).getD 0) ∧
    (∀ n, mapGet last p = some n →
      tombsFor (refresh files fs ts0 last).lastRefresh p n = []) ∧
    (refresh files fs ts0 last).fileBatches =
      files.filterMap (fun q => (readRes q (fs q)).toOption) := by
  have href : mapGet (refresh files fs ts0 last).lastRefresh p =
      some ((mapGet last p).getD 0) := by
    rw [refresh_lastRefresh]
    unfold scanFiles
    rw [foldl_refreshStep_ref_mem fs last files _ p hp hnd]
    unfold refVal
    cases hres : readRes p (fs p) with
    | ok tgs =>
      rw [hres] at hfail
      simp [Except.isOk, Except.toBool] at hfail
    | error e => rfl
  refine ⟨?_, ?_, href, ?_, ?_⟩
  · rw [refresh_readErrors]
    unfold scanFiles
    rw [foldl_refreshStep_errs]
    simp
  · have hmemf : p ∈ files.filter (fun q => !(readRes q (fs q)).isOk) := by
      rw [List.mem_filter]
      exact ⟨hp, by rw [hfail]; rfl⟩
    exact List.count_eq_one_of_mem (hnd.filter _) hmemf
  · intro n hn
    apply tombsFor_of_ge
    rw [href, hn]
    simp
  · rw [refresh_fileBatches]
    unfold scanFiles
    rw [foldl_refreshStep_batches]
    simp

theorem C2_witness :
    (["a.json"] : List String).Nodup ∧
    (readRes "a.json" ((fun _ => ⟨false, true, true, 0, Except.ok []⟩ :
        String → FileModel) "a.json")).isOk = false ∧
    ((refresh ["a.json"] (fun _ => ⟨false, true, true, 0, Except.ok []⟩)
        [] [("a.json", 3)]).readErrors =
      ((["a.json"] : List String).filter (fun q =>
        !(readRes q ((fun _ => (⟨false, true, true, 0, Except.ok []⟩ : FileModel)) q)).isOk)).length ∧
    ((["a.json"] : List String).filter (fun q =>
        !(readRes q ((fun _ => (⟨false, true, true, 0, Except.ok []⟩ : FileModel)) q)).isOk)).count "a.json" = 1 ∧
    mapGet (refresh ["a.json"] (fun _ => ⟨false, true, true, 0, Except.ok []⟩)
        [] [("a.json", 3)]).lastRefresh "a.json" =
      some ((mapGet [("a.json", (3 : Nat))] "a.json").getD 0) ∧
    (∀ n, mapGet [("a.json", (3 : Nat))] "a.json" = some n →
      tombsFor (refresh ["a.json"] (fun _ => ⟨false, true, true, 0, Except.ok []⟩)
          [] [("a.json", 3)]).lastRefresh "a.json" n = []) ∧
    (refresh ["a.json"] (fun _ => ⟨false, true, true, 0, Except.ok []⟩)
        [] [("a.json", 3)]).fileBatches =
      (["a.json"] : List String).filterMap (fun q =>
        (readRes q ((fun _ => (⟨false, true, true, 0, Except.ok []⟩ : FileModel)) q)).toOption)) :=
  ⟨by decide, by decide,
    C2_read_error_carries_forward ["a.json"]
      (fun _ => ⟨false, true, true, 0, Except.ok []⟩) [] [("a.json", 3)] "a.json"
      (by decide) (by decide) (by decide) (by decide)⟩

/-- **C6**: two consecutive refreshes over the same files with
unchanged, error-free content: the second refresh emits zero tombstone
batches and its per-file group batches equal the first refresh's. -/
theorem C6_idempotent (files : List String) (fs : String → FileModel)
    (ts0 : List (String × Int)) (last0 : List (String × Nat))
    (hnp : ∀ q ∈ files, decodeDispatch q.data ≠ none)
    (hok : ∀ q ∈ files, (readRes q (fs q)).isOk = true) :
    (refresh files fs (refresh files fs ts0 last0).timestamps
        (refresh files fs ts0 last0).lastRefresh).tombBatches = [] ∧
    (refresh files fs (refresh files fs ts0 last0).timestamps
        (refresh files fs ts0 last0).lastRefresh).fileBatches =
      (refresh files fs ts0 last0).fileBatches := by
  have hrefs : ∀ (ts' : List (String × Int)) (last' : List (String × Nat)),
      (scanFiles files fs ts' last').ref =
        files.foldl
          (fun r p => mapInsert r p ((readRes p (fs p)).toOption.getD []).length) [] := by
    intro ts' last'
    unfold scanFiles
    rw [foldl_refreshStep_ref_of_ok fs last' files _ hok]
  constructor
  · rw [refresh_tombBatches, foldl_delStep_snd]
    simp only [List.nil_append]
    rw [List.flatMap_eq_nil_iff]
    intro x hx
    have h12 : (scanFiles files fs (refresh files fs ts0 last0).timestamps
        (refresh files fs ts0 last0).lastRefresh).ref =
        (scanFiles files fs ts0 last0).ref := by
      rw [hrefs, hrefs]
    rw [h12]
    rw [refresh_lastRefresh] at hx
    have hnd : (((scanFiles files fs ts0 last0).ref).map Prod.fst).Nodup := by
      unfold scanFiles
      exact foldl_refreshStep_ref_nodup fs last0 files _ (by simp)
    have hget : mapGet (scanFiles files fs ts0 last0).ref x.1 = some x.2 :=
      mapGet_of_mem_nodup _ _ _ (Prod.mk.eta ▸ hx) hnd
    apply tombsFor_of_ge
    rw [hget]
    simp
  · rw [refresh_fileBatches, refresh_fileBatches]
    unfold scanFiles
    rw [foldl_refreshStep_batches, foldl_refreshStep_batches]

theorem C6_witness :
    (∀ q ∈ (["a.json"] : List String),
      (readRes q ((fun _ => (⟨true, true, true, 4,
        Except.ok [some ⟨[], none, ""⟩]⟩ : FileModel)) q)).isOk = true) ∧
    ((refresh ["a.json"] (fun _ => ⟨true, true, true, 4, Except.ok [some ⟨[], none, ""⟩]⟩)
        (refresh ["a.json"] (fun _ => ⟨true, true, true, 4, Except.ok [some ⟨[], none, ""⟩]⟩)
          [] []).timestamps
        (refresh ["a.json"] (fun _ => ⟨true, true, true, 4, Except.ok [some ⟨[], none, ""⟩]⟩)
          [] []).lastRefresh).tombBatches = [] ∧
    (refresh ["a.json"] (fun _ => ⟨true, true, true, 4, Except.ok [some ⟨[], none, ""⟩]⟩)
        (refresh ["a.json"] (fun _ => ⟨true, true, true, 4, Except.ok [some ⟨[], none, ""⟩]⟩)
          [] []).timestamps
        (refresh ["a.json"] (fun _ => ⟨true, true, true, 4, Except.ok [some ⟨[], none, ""⟩]⟩)
          [] []).lastRefresh).fileBatches =
      (refresh ["a.json"] (fun _ => ⟨true, true, true, 4, Except.ok [some ⟨[], none, ""⟩]⟩)
        [] []).fileBatches) :=
  ⟨by decide,
    C6_idempotent ["a.json"]
      (fun _ => ⟨true, true, true, 4, Except.ok [some ⟨[], none, ""⟩]⟩) [] []
      (by decide) (by decide)⟩

theorem C9_witness : eventTriggersRefresh "x" 2 = true :=
  (C9_event_filter "x" 2).mpr (by decide)

theorem C5_witness : validateSDConfig ["a.json"] = true :=
  (C5_amended ["a.json"]).mpr
    ⟨by decide,
     fun name hnm => by
       simp only [List.mem_singleton] at hnm
       subst hnm
       exact ⟨"a".data, [], "json".data, by decide, by decide, Or.inl rfl, by decide⟩⟩

theorem C8_witness :
    ((collectUnique [[("a", (1 : Int))]]).map Prod.fst).Nodup ∧
    mapGet (collectUnique [[("a", (1 : Int))]]) "a" =
      (([[("a", (1 : Int))]].flatten).reverse.find?
        (fun e => decide (e.1 = "a"))).map Prod.snd ∧
    ((mapGet (collectUnique [[("a", (1 : Int))]]) "a").isSome =
      [[("a", (1 : Int))]].any (fun ts => (mapGet ts "a").isSome)) :=
  C8_amended [[("a", (1 : Int))]] "a"
